import Mathlib

/-
Verification of the qilang VM core (src/vm.c, src/chunk.h, src/table.h)
against its natural-language specification.

Shallow embedding conventions:
- C wide strings (`wchar_t*`) are `List Nat` of code points; the model keeps
  the characters before the terminating NUL, and inputs are assumed to have
  no interior NUL (C strings cannot contain one).
- The VM's `double` numbers appear in the verified claims only at integral
  values (argument counts, indices, lengths); they are modelled as `Int`
  so that the C truncating casts are the identity on the modelled range.
- The VM value stack is a `List Value`, bottom first, so `stackTop` is the
  list length and `push` appends at the end.
- Fallible C paths (runtimeError + `return false`) are `Except RTErr`.
-/

set_option linter.unusedVariables false

/-- Runtime errors raised by the VM (`runtimeError` call sites in vm.c).
`expectedArgs want got` is the message 「需要 want 个参数，但得到 got。」. -/
inductive RTErr where
  | expectedArgs (want got : Nat)
  | expectedArgsRange (lo hi : Nat) (got : Nat)
  | stackOverflow
  | onlyFunctionsAndClasses
  | onlyInstancesHaveProperties
  | onlyInstancesStringsListsHaveMethods
  | undefinedProperty (name : String)
  | superclassMustBeClass
  | argTypeMismatch (argIndex : Nat)
  | invalidIndex (argIndex : Nat)
  | endBeforeBegin
  | cannotPopEmpty
  | castError
  deriving Repr, DecidableEq

/-- Bytecode instructions of the dispatch loop (chunk.h `OpCode`), for the
opcodes exercised by the verified claims.  Operand bytes are decoded into
the constructor arguments; `ret` is `OP_RETURN`, `nilI` is `OP_NIL`,
`getLocal` is `OP_GET_LOCAL`, `popI` is `OP_POP`, `dupI` is `OP_DUP`. -/
inductive Instr where
  | nilI
  | trueI
  | falseI
  | popI
  | dupI
  | getLocal (slot : Nat)
  | ret
  deriving Repr, DecidableEq

/-- ObjFunction: declared arity plus its chunk's decoded code
(name, upvalue count and line table are not needed by the claims). -/
structure ObjFunction where
  arity : Nat
  code : List Instr
  deriving Repr, DecidableEq

/-- Runtime values (the tagged union `Value` plus the heap object variants
reached by the claims).  A closure value carries its `ObjFunction`; classes
carry their name and method table; instances carry their class's method
table, their field table, and the `isStatic` flag; `bound` is an
ObjBoundMethod (receiver plus method value). -/
inductive Value where
  | nil
  | bool (b : Bool)
  | num (n : Int)
  | str (s : List Nat)
  | list (xs : List Value)
  | closure (fn : ObjFunction)
  | cls (name : String) (methods : List (String × Value))
  | inst (methods : List (String × Value)) (fields : List (String × Value)) (isStatic : Bool)
  | bound (receiver : Value) (method : Value)

/-- Method/field tables, keyed by interned-string identity; interning makes
identity coincide with textual equality, so keys are plain strings. -/
abbrev Table := List (String × Value)

/-- Modelled from the spec: table.c is not under src/ (table.h only declares
it).  §4.3: `get` looks the key up. -/
def tableGet : Table → String → Option Value
  | [], _ => none
  | e :: t, k => if e.1 = k then some e.2 else tableGet t k

/-- Modelled from the spec: table.c is not under src/.  §4.3: `set` writes
the value for the key, inserting it when absent. -/
def tableSet : Table → String → Value → Table
  | [], k, v => [(k, v)]
  | e :: t, k, v => if e.1 = k then (k, v) :: t else e :: tableSet t k v

/-- Modelled from the spec: table.c is not under src/.  §4.3: `addAll`
(bulk copy) copies every entry of `from` into `to`. -/
def tableAddAll (src dst : Table) : Table :=
  src.foldl (fun acc e => tableSet acc e.1 e.2) dst

/-- Upvalue object: its stack location while open, and (once closed) its own
storage holding the copied value (`closed = some v` models the C redirect of
`location` to `&upvalue->closed`). -/
structure Upvalue where
  location : Nat
  closed : Option Value

/-- Call frame: the active function (the closure's code), the instruction
pointer, the stack index of slot 0 (the callee), and the `callClosure`
callback flag used by `runClosure`. -/
structure Frame where
  fn : ObjFunction
  ip : Nat
  slots : Nat
  callClosure : Bool

/-- VM state visible to the modelled operations: the value stack (bottom
first), the frame array (innermost frame first) and the open-upvalue list. -/
structure VMSt where
  stack : List Value
  frames : List Frame
  openUpvalues : List Upvalue

/-- FRAMES_MAX from vm.h (spec §4.4: "Up to a fixed maximum (e.g. 64)"). -/
def FRAMES_MAX : Nat := 64

/-- Name of the initializer method (`vm.initString`, 「初始化」). -/
def initString : String := "初始化"

/-- Embeds `call` (vm.c:127): validate exact arity, check the frame limit,
then push a frame whose `slots` points at the callee slot
(`stackTop - argCount - 1`). -/
def call (fn : ObjFunction) (argCount : Nat) (s : VMSt) : Except RTErr VMSt :=
  if argCount ≠ fn.arity then
    .error (.expectedArgs fn.arity argCount)
  else if s.frames.length = FRAMES_MAX then
    .error .stackOverflow
  else
    .ok { s with frames := ⟨fn, 0, s.stack.length - argCount - 1, false⟩ :: s.frames }

/-- Embeds `callValue` (vm.c:145): bound methods replace the callee slot
with the receiver; classes replace it with a fresh instance and run `init`
when present, otherwise require zero arguments; closures go through `call`;
everything else errors. -/
def callValue (callee : Value) (argCount : Nat) (s : VMSt) : Except RTErr VMSt :=
  match callee with
  | .bound receiver method =>
    match method with
    | .closure fn =>
      call fn argCount { s with stack := s.stack.set (s.stack.length - argCount - 1) receiver }
    | _ => .error .castError
  | .cls _ methods =>
    let s' : VMSt :=
      { s with stack := s.stack.set (s.stack.length - argCount - 1) (.inst methods [] false) }
    match tableGet methods initString with
    | some (.closure fn) => call fn argCount s'
    | some _ => .error .castError
    | none =>
      if argCount ≠ 0 then .error (.expectedArgs 0 argCount)
      else .ok s'
  | .closure fn => call fn argCount s
  | _ => .error .onlyFunctionsAndClasses

/-- C1: calling a closure with the wrong argument count errors with
「需要 N 个参数，但得到 M。」 (N the declared arity, M the supplied count) and
pushes no frame; calling a class with no `init` method and a nonzero
argument count raises the same error with N = 0; with matching arity and
the frame limit not reached, exactly one new frame is pushed. -/
theorem c1_call_arity (fn : ObjFunction) (name : String) (methods : Table)
    (argCount : Nat) (s : VMSt) :
    (argCount ≠ fn.arity →
      call fn argCount s = .error (.expectedArgs fn.arity argCount)) ∧
    (tableGet methods initString = none → argCount ≠ 0 →
      callValue (.cls name methods) argCount s = .error (.expectedArgs 0 argCount)) ∧
    (argCount = fn.arity → s.frames.length < FRAMES_MAX →
      call fn argCount s =
        .ok { s with frames := ⟨fn, 0, s.stack.length - argCount - 1, false⟩ :: s.frames }) := by
  refine ⟨fun h => ?_, fun hinit hargs => ?_, fun h hlt => ?_⟩
  · simp [call, h]
  · simp [callValue, hinit, hargs]
  · simp [call, h, Nat.ne_of_lt hlt]

/-- Witness for c1_call_arity at concrete inputs. -/
theorem c1_call_arity_witness :
    (call ⟨2, []⟩ 3 ⟨[], [], []⟩ = .error (.expectedArgs 2 3)) ∧
    (callValue (.cls "K" []) 1 ⟨[.nil, .nil], [], []⟩ = .error (.expectedArgs 0 1)) ∧
    (call ⟨1, []⟩ 1 ⟨[.nil, .nil], [], []⟩ =
      .ok ⟨[.nil, .nil], [⟨⟨1, []⟩, 0, 0, false⟩], []⟩) := by
  refine ⟨(c1_call_arity ⟨2, []⟩ "K" [] 3 ⟨[], [], []⟩).1 (by decide),
          (c1_call_arity ⟨2, []⟩ "K" [] 1 ⟨[.nil, .nil], [], []⟩).2.1 rfl (by decide),
          ?_⟩
  exact (c1_call_arity ⟨1, []⟩ "K" [] 1 ⟨[.nil, .nil], [], []⟩).2.2 rfl (by decide)

/-- Reads `peek(d)` (vm.c:116): the value `d` slots below the stack top. -/
def peekSt (s : VMSt) (d : Nat) : Value :=
  s.stack.getD (s.stack.length - 1 - d) Value.nil

/-- Embeds the `OP_INHERIT` case of `run` (vm.c:1131): `peek(1)` must be the
superclass (else 「超类必须是个类。」), `peek(0)` is cast to the subclass,
`tableAddAll` copies the superclass's methods into the subclass's table, and
`pop()` removes the top of the stack — the subclass.  The mutated subclass
object (kept alive off-stack by the class's variable slot) is returned
alongside the new state. -/
def opInherit (s : VMSt) : Except RTErr (VMSt × Value) :=
  match peekSt s 1 with
  | .cls _ supMethods =>
    match peekSt s 0 with
    | .cls subName subMethods =>
      .ok ({ s with stack := s.stack.dropLast },
           .cls subName (tableAddAll supMethods subMethods))
    | _ => .error .castError
  | _ => .error .superclassMustBeClass

theorem tableGet_set_self (t : Table) (k : String) (v : Value) :
    tableGet (tableSet t k v) k = some v := by
  induction t with
  | nil => simp [tableSet, tableGet]
  | cons e t ih =>
    by_cases h : e.1 = k
    · simp [tableSet, tableGet, h]
    · simp [tableSet, tableGet, h, ih]

theorem tableGet_set_other (t : Table) (k k' : String) (v : Value) (h : k' ≠ k) :
    tableGet (tableSet t k v) k' = tableGet t k' := by
  induction t with
  | nil => simp [tableSet, tableGet, Ne.symm h]
  | cons e t ih =>
    by_cases he : e.1 = k
    · simp [tableSet, tableGet, he, Ne.symm h]
    · simp [tableSet, tableGet, he, ih]

theorem tableGet_eq_none_of_not_mem (t : Table) (k : String)
    (h : k ∉ t.map Prod.fst) : tableGet t k = none := by
  induction t with
  | nil => simp [tableGet]
  | cons e t ih =>
    simp only [List.map_cons, List.mem_cons] at h
    push_neg at h
    simpa [tableGet, Ne.symm h.1] using ih h.2

theorem tableAddAll_get_none (src : Table) (k : String)
    (h : tableGet src k = none) :
    ∀ dst : Table, tableGet (tableAddAll src dst) k = tableGet dst k := by
  induction src with
  | nil => intro dst; rfl
  | cons e t ih =>
    intro dst
    by_cases hek : e.1 = k
    · simp [tableGet, hek] at h
    · have ht : tableGet t k = none := by simpa [tableGet, hek] using h
      have hstep : tableAddAll (e :: t) dst = tableAddAll t (tableSet dst e.1 e.2) := rfl
      rw [hstep, ih ht (tableSet dst e.1 e.2)]
      exact tableGet_set_other dst e.1 k e.2 (Ne.symm hek)

theorem tableAddAll_get_of_src (src : Table) (hnodup : (src.map Prod.fst).Nodup) :
    ∀ (dst : Table) (k : String) (v : Value),
      tableGet src k = some v → tableGet (tableAddAll src dst) k = some v := by
  induction src with
  | nil => intro dst k v h; simp [tableGet] at h
  | cons e t ih =>
    intro dst k v h
    simp only [List.map_cons, List.nodup_cons] at hnodup
    have hstep : tableAddAll (e :: t) dst = tableAddAll t (tableSet dst e.1 e.2) := rfl
    by_cases hek : e.1 = k
    · have hv : v = e.2 := by simpa [tableGet, hek] using h.symm
      have hrest : tableGet t k = none :=
        tableGet_eq_none_of_not_mem t k (hek ▸ hnodup.1)
      rw [hstep, tableAddAll_get_none t k hrest (tableSet dst e.1 e.2)]
      subst hek
      subst hv
      exact tableGet_set_self dst e.1 e.2
    · have ht : tableGet t k = some v := by simpa [tableGet, hek] using h
      rw [hstep]
      exact ih hnodup.2 (tableSet dst e.1 e.2) k v ht

theorem getD_append_pair_fst (rest : List Value) (a b d : Value) :
    (rest ++ [a, b]).getD rest.length d = a := by
  induction rest with
  | nil => rfl
  | cons x xs ih => simpa using ih

theorem getD_append_pair_snd (rest : List Value) (a b d : Value) :
    (rest ++ [a, b]).getD (rest.length + 1) d = b := by
  induction rest with
  | nil => rfl
  | cons x xs ih => simpa using ih

theorem dropLast_append_pair (rest : List Value) (a b : Value) :
    (rest ++ [a, b]).dropLast = rest ++ [a] := by
  have h : rest ++ [a, b] = (rest ++ [a]) ++ [b] := by simp
  rw [h, List.dropLast_concat]

/-- C2 counterexample: with the parent class `P` below the child class `C`
on the stack, `OP_INHERIT` leaves the PARENT on the stack and removes the
child — the value remaining on the stack is the parent, not the child, so
the claim "pops the parent class from the stack" fails. -/
theorem c2_inherit_counterexample :
    opInherit ⟨[Value.cls "P" [("m", .num 1)], Value.cls "C" []], [], []⟩ =
      .ok (⟨[Value.cls "P" [("m", .num 1)]], [], []⟩, Value.cls "C" [("m", .num 1)]) ∧
    Value.cls "P" [("m", .num 1)] ≠ Value.cls "C" [("m", .num 1)] := by
  refine ⟨rfl, fun h => ?_⟩
  injection h with h1 _
  exact absurd h1 (by decide)

/-- C2 (amended): `OP_INHERIT` copies every entry of the parent (super)
class's method table into the child (sub) class's method table — parent
entries are all retrievable afterwards, and child entries under other keys
are kept — and then pops the CHILD class (the stack top) from the stack,
leaving the parent in place. -/
theorem c2_inherit (s : VMSt) (supName subName : String) (supM subM : Table)
    (rest : List Value)
    (hstack : s.stack = rest ++ [Value.cls supName supM, Value.cls subName subM])
    (hnodup : (supM.map Prod.fst).Nodup) :
    opInherit s = .ok ({ s with stack := rest ++ [Value.cls supName supM] },
                       Value.cls subName (tableAddAll supM subM)) ∧
    (∀ k v, tableGet supM k = some v → tableGet (tableAddAll supM subM) k = some v) ∧
    (∀ k, tableGet supM k = none → tableGet (tableAddAll supM subM) k = tableGet subM k) := by
  refine ⟨?_, fun k v h => tableAddAll_get_of_src supM hnodup subM k v h,
          fun k h => tableAddAll_get_none supM k h subM⟩
  have hp1 : peekSt s 1 = Value.cls supName supM := by
    unfold peekSt
    rw [hstack]
    have hidx : (rest ++ [Value.cls supName supM, Value.cls subName subM]).length - 1 - 1
        = rest.length := by simp
    rw [hidx]
    exact getD_append_pair_fst rest _ _ _
  have hp0 : peekSt s 0 = Value.cls subName subM := by
    unfold peekSt
    rw [hstack]
    have hidx : (rest ++ [Value.cls supName supM, Value.cls subName subM]).length - 1 - 0
        = rest.length + 1 := by simp
    rw [hidx]
    exact getD_append_pair_snd rest _ _ _
  unfold opInherit
  rw [hp1, hp0, hstack, dropLast_append_pair]

/-- Witness for c2_inherit at a concrete stack. -/
theorem c2_inherit_witness :
    opInherit ⟨[Value.nil, Value.cls "A" [("f", .num 2)], Value.cls "B" [("g", .num 3)]], [], []⟩ =
      .ok (⟨[Value.nil, Value.cls "A" [("f", .num 2)]], [], []⟩,
           Value.cls "B" (tableAddAll [("f", .num 2)] [("g", .num 3)])) ∧
    tableGet (tableAddAll [("f", Value.num 2)] [("g", Value.num 3)]) "f" = some (.num 2) := by
  have h := c2_inherit ⟨[Value.nil, Value.cls "A" [("f", .num 2)], Value.cls "B" [("g", .num 3)]], [], []⟩
    "A" "B" [("f", .num 2)] [("g", .num 3)] [Value.nil] rfl (by simp)
  exact ⟨h.1, h.2.1 "f" (.num 2) rfl⟩

/-- Embeds `newUpvalue` (object.c interface): a fresh open upvalue for the
given stack slot. -/
def newUpvalue (loc : Nat) : Upvalue := ⟨loc, none⟩

/-- Embeds `captureUpvalue` (vm.c:722): walk the open-upvalue list while
`upvalue->location > local`; if an upvalue for this slot already exists,
return it and leave the list unchanged; otherwise link a fresh upvalue in
at the current position.  Returns the captured upvalue with the updated
list. -/
def captureUpvalue : List Upvalue → Nat → Upvalue × List Upvalue
  | [], loc => (newUpvalue loc, [newUpvalue loc])
  | u :: rest, loc =>
    if loc < u.location then
      let p := captureUpvalue rest loc
      (p.1, u :: p.2)
    else if u.location = loc then
      (u, u :: rest)
    else
      (newUpvalue loc, newUpvalue loc :: u :: rest)

/-- Embeds `closeUpvalues` (vm.c:745): starting at the head of the open
list, while the head's location is at or above `last`, copy the pointed-to
stack value into the upvalue's own storage (its `closed` field, modelling
the redirect of `location` to `&upvalue->closed`) and unlink it.  Returns
the closed upvalues and the remaining open list. -/
def closeUpvalues (read : Nat → Value) : List Upvalue → Nat → List Upvalue × List Upvalue
  | [], _ => ([], [])
  | u :: rest, last =>
    if last ≤ u.location then
      let p := closeUpvalues read rest last
      (⟨u.location, some (read u.location)⟩ :: p.1, p.2)
    else
      ([], u :: rest)

/-- Open-upvalue list invariant (spec §3): sorted strictly by descending
stack address. -/
def UpvSorted (l : List Upvalue) : Prop :=
  l.Pairwise (fun a b => b.location < a.location)

theorem captureUpvalue_mem_sub (l : List Upvalue) (loc : Nat) :
    ∀ x ∈ (captureUpvalue l loc).2, x ∈ l ∨ x = newUpvalue loc := by
  induction l with
  | nil => intro x hx; simp [captureUpvalue] at hx; simp [hx]
  | cons u rest ih =>
    intro x hx
    by_cases h1 : loc < u.location
    · simp only [captureUpvalue, if_pos h1, List.mem_cons] at hx
      rcases hx with rfl | hx
      · exact Or.inl (List.mem_cons_self _ _)
      · rcases ih x hx with hm | he
        · exact Or.inl (List.mem_cons_of_mem _ hm)
        · exact Or.inr he
    · by_cases h2 : u.location = loc
      · simp only [captureUpvalue, if_neg h1, if_pos h2] at hx
        exact Or.inl hx
      · simp only [captureUpvalue, if_neg h1, if_neg h2, List.mem_cons] at hx
        rcases hx with rfl | hx
        · exact Or.inr rfl
        · exact Or.inl (by simpa using hx)

theorem captureUpvalue_sorted (l : List Upvalue) (loc : Nat) (h : UpvSorted l) :
    UpvSorted (captureUpvalue l loc).2 := by
  induction l with
  | nil => simp [captureUpvalue, UpvSorted]
  | cons u rest ih =>
    rcases List.pairwise_cons.mp h with ⟨hu, hrest⟩
    by_cases h1 : loc < u.location
    · simp only [captureUpvalue, if_pos h1]
      refine List.pairwise_cons.mpr ⟨?_, ih hrest⟩
      intro x hx
      rcases captureUpvalue_mem_sub rest loc x hx with hm | he
      · exact hu x hm
      · rw [he]; exact h1
    · by_cases h2 : u.location = loc
      · simpa [captureUpvalue, if_neg h1, if_pos h2] using h
      · have hlt : u.location < loc := by omega
        simp only [captureUpvalue, if_neg h1, if_neg h2]
        refine List.pairwise_cons.mpr ⟨?_, h⟩
        intro x hx
        rcases List.mem_cons.mp hx with rfl | hm
        · exact hlt
        · exact lt_trans (hu x hm) hlt

theorem upvSorted_nodup (l : List Upvalue) (h : UpvSorted l) :
    (l.map (fun u => u.location)).Nodup :=
  List.pairwise_map.mpr (h.imp fun hlt => ne_of_gt hlt)

theorem captureUpvalue_mem (l : List Upvalue) (loc : Nat) (h : UpvSorted l)
    (hm : ∃ u ∈ l, u.location = loc) :
    (captureUpvalue l loc).2 = l ∧ (captureUpvalue l loc).1 ∈ l ∧
    (captureUpvalue l loc).1.location = loc := by
  induction l with
  | nil => simp at hm
  | cons u rest ih =>
    rcases List.pairwise_cons.mp h with ⟨hu, hrest⟩
    rcases hm with ⟨w, hw, hwl⟩
    by_cases h1 : loc < u.location
    · have hwrest : w ∈ rest := by
        rcases List.mem_cons.mp hw with rfl | hm'
        · omega
        · exact hm'
      have := ih hrest ⟨w, hwrest, hwl⟩
      simp only [captureUpvalue, if_pos h1]
      exact ⟨by rw [this.1], List.mem_cons_of_mem _ this.2.1, this.2.2⟩
    · by_cases h2 : u.location = loc
      · simp only [captureUpvalue, if_neg h1, if_pos h2]
        exact ⟨by trivial, List.mem_cons_self _ _, h2⟩
      · exfalso
        rcases List.mem_cons.mp hw with rfl | hm'
        · exact h2 hwl
        · have := hu w hm'
          omega

theorem captureUpvalue_not_mem (l : List Upvalue) (loc : Nat)
    (h : loc ∉ l.map (fun u => u.location)) :
    (captureUpvalue l loc).1 = newUpvalue loc ∧
    ((captureUpvalue l loc).2.map (fun u => u.location)).Perm
      (loc :: l.map (fun u => u.location)) := by
  induction l with
  | nil => exact ⟨by trivial, by trivial⟩
  | cons u rest ih =>
    simp only [List.map_cons, List.mem_cons] at h
    push_neg at h
    by_cases h1 : loc < u.location
    · have hp := ih h.2
      simp only [captureUpvalue, if_pos h1, List.map_cons]
      refine ⟨hp.1, ?_⟩
      exact (hp.2.cons u.location).trans (List.Perm.swap loc u.location _)
    · by_cases h2 : u.location = loc
      · exact absurd h2.symm h.1
      · simp only [captureUpvalue, if_neg h1, if_neg h2, newUpvalue, List.map_cons]
        exact ⟨by trivial, by exact List.Perm.refl _⟩

theorem closeUpvalues_eq_filter (read : Nat → Value) (l : List Upvalue) (last : Nat)
    (h : UpvSorted l) :
    closeUpvalues read l last =
      ((l.filter fun u => decide (last ≤ u.location)).map
          (fun u => ⟨u.location, some (read u.location)⟩),
        l.filter fun u => decide (u.location < last)) := by
  induction l with
  | nil => rfl
  | cons u rest ih =>
    rcases List.pairwise_cons.mp h with ⟨hu, hrest⟩
    by_cases hle : last ≤ u.location
    · have hnot : ¬ u.location < last := by omega
      simp [closeUpvalues, hle, ih hrest, List.filter_cons, hnot]
    · have hlt : u.location < last := by omega
      have hall : ∀ x ∈ u :: rest, x.location < last := by
        intro x hx
        rcases List.mem_cons.mp hx with rfl | hm
        · exact hlt
        · exact lt_trans (hu x hm) hlt
      have hf1 : (u :: rest).filter (fun u => decide (last ≤ u.location)) = [] := by
        rw [List.filter_eq_nil_iff]
        intro a ha
        simp only [decide_eq_true_eq]
        have := hall a ha
        omega
      have hf2 : (u :: rest).filter (fun u => decide (u.location < last)) = u :: rest := by
        rw [List.filter_eq_self]
        intro a ha
        simpa using hall a ha
      simp [closeUpvalues, hle, hf1, hf2]

/-- C3: when the open-upvalue list is sorted strictly by descending stack
address, `captureUpvalue` preserves that order (hence no two open upvalues
share a location), returns the existing upvalue with the list unchanged
when one already covers the requested slot, and otherwise inserts a fresh
upvalue at the order-preserving position; `closeUpvalues` removes exactly
the upvalues whose location is at or above the given stack address, copying
each pointed-to stack value into the upvalue's own storage, and keeps
exactly those below it. -/
theorem c3_open_upvalue_invariant (l : List Upvalue) (loc last : Nat)
    (read : Nat → Value) (h : UpvSorted l) :
    (UpvSorted (captureUpvalue l loc).2 ∧
      ((captureUpvalue l loc).2.map (fun u => u.location)).Nodup) ∧
    ((∃ u ∈ l, u.location = loc) →
      (captureUpvalue l loc).2 = l ∧ (captureUpvalue l loc).1 ∈ l ∧
      (captureUpvalue l loc).1.location = loc) ∧
    (loc ∉ l.map (fun u => u.location) →
      (captureUpvalue l loc).1 = newUpvalue loc ∧
      ((captureUpvalue l loc).2.map (fun u => u.location)).Perm
        (loc :: l.map (fun u => u.location))) ∧
    (closeUpvalues read l last =
      ((l.filter fun u => decide (last ≤ u.location)).map
          (fun u => ⟨u.location, some (read u.location)⟩),
        l.filter fun u => decide (u.location < last))) := by
  refine ⟨⟨captureUpvalue_sorted l loc h, upvSorted_nodup _ (captureUpvalue_sorted l loc h)⟩,
    fun hm => captureUpvalue_mem l loc h hm,
    fun hn => captureUpvalue_not_mem l loc hn,
    closeUpvalues_eq_filter read l last h⟩

/-- Witness for c3_open_upvalue_invariant on a concrete sorted list. -/
theorem c3_open_upvalue_invariant_witness :
    (captureUpvalue [⟨5, none⟩, ⟨3, none⟩] 3).2 = [⟨5, none⟩, ⟨3, none⟩] ∧
    (closeUpvalues (fun _ => Value.nil) [⟨5, none⟩, ⟨3, none⟩] 4).2 = [⟨3, none⟩] := by
  have h := c3_open_upvalue_invariant [⟨5, none⟩, ⟨3, none⟩] 3 4 (fun _ => Value.nil)
    (by simp [UpvSorted])
  refine ⟨(h.2.1 ⟨⟨3, none⟩, by simp, rfl⟩).1, ?_⟩
  rw [h.2.2.2]
  rfl

/-- Result of the dispatch loop `run` (vm.c:772): `INTERPRET_OK` carrying
the state at exit, `INTERPRET_RUNTIME_ERROR`, or fuel exhaustion (the model
bounds the number of loop iterations; the C loop is unbounded). -/
inductive RunRes where
  | ok (s : VMSt)
  | rtError
  | out

/-- Sets the `callClosure` flag on the innermost frame
(`vm.frames[vm.frameCount - 1].callClosure = true`, vm.c:1298). -/
def markCallClosure (s : VMSt) : VMSt :=
  { s with frames :=
      match s.frames with
      | f :: r => { f with callClosure := true } :: r
      | [] => [] }

/-- Embeds the dispatch loop `run` (vm.c:772) over the modelled opcodes.
Each fuel unit is one loop iteration.  `OP_RETURN` (vm.c:1108) pops the
result, closes the frame's upvalues, pops the frame, and then: exits
popping once more when no frame is left; exits pushing the result when the
popped frame was a callback frame (note: WITHOUT resetting `stackTop` to
the frame's `slots`); otherwise resets the stack to the frame's `slots`,
pushes the result and continues in the caller. -/
def runLoop : Nat → VMSt → RunRes
  | 0, _ => .out
  | fuel + 1, s =>
    match s.frames with
    | [] => .rtError
    | fr :: rest =>
      match fr.fn.code[fr.ip]? with
      | none => .rtError
      | some instr =>
        match instr with
        | .nilI => runLoop fuel
            ⟨s.stack ++ [.nil], { fr with ip := fr.ip + 1 } :: rest, s.openUpvalues⟩
        | .trueI => runLoop fuel
            ⟨s.stack ++ [.bool true], { fr with ip := fr.ip + 1 } :: rest, s.openUpvalues⟩
        | .falseI => runLoop fuel
            ⟨s.stack ++ [.bool false], { fr with ip := fr.ip + 1 } :: rest, s.openUpvalues⟩
        | .popI => runLoop fuel
            ⟨s.stack.dropLast, { fr with ip := fr.ip + 1 } :: rest, s.openUpvalues⟩
        | .dupI => runLoop fuel
            ⟨s.stack ++ [peekSt s 0], { fr with ip := fr.ip + 1 } :: rest, s.openUpvalues⟩
        | .getLocal n => runLoop fuel
            ⟨s.stack ++ [s.stack.getD (fr.slots + n) .nil],
              { fr with ip := fr.ip + 1 } :: rest, s.openUpvalues⟩
        | .ret =>
          let result := s.stack.getLast?.getD .nil
          let stack1 := s.stack.dropLast
          let opens := (closeUpvalues (fun i => s.stack.getD i .nil)
                          s.openUpvalues fr.slots).2
          if rest.isEmpty then
            .ok ⟨stack1.dropLast, rest, opens⟩
          else if fr.callClosure then
            .ok ⟨stack1 ++ [result], rest, opens⟩
          else
            runLoop fuel ⟨stack1.take fr.slots ++ [result], rest, opens⟩

/-- Embeds `runClosure` (vm.c:1293): push the arguments, `call` the closure
(the C code discards `call`'s success flag and its failure path resets the
whole VM, so the model returns `none` there; the in-tree callers `filter`
and `sort` validate arity beforehand), mark the new frame as a callback
frame, run the dispatch loop, then pop the result and drop the argument
slots (`*value = pop(); vm.stackTop -= argCount`). -/
def runClosure (fuel : Nat) (fn : ObjFunction) (args : List Value) (s : VMSt) :
    Option (Value × VMSt) :=
  match call fn args.length { s with stack := s.stack ++ args } with
  | .error _ => none
  | .ok s2 =>
    match runLoop fuel (markCallClosure s2) with
    | .ok s4 =>
      some (s4.stack.getLast?.getD .nil,
            { s4 with stack := s4.stack.dropLast.take (s4.stack.dropLast.length - args.length) })
    | _ => none

/-- C4 counterexample: a callee that still has an extra value above its
arguments when its RETURN executes (`fn(x) { var y = nil; return nil; }`,
code `[nilI, nilI, ret]`).  `runClosure` succeeds with the returned value,
but the VM stack is NOT restored: starting from stack `[7]`, it ends as
`[7, 5]` — the callback RETURN path never resets `stackTop` to the frame's
`slots`, and `runClosure` pops only `argCount + 1` slots. -/
theorem c4_runClosure_counterexample :
    runClosure 10 ⟨1, [.nilI, .nilI, .ret]⟩ [.num 5]
        ⟨[.num 7], [⟨⟨0, []⟩, 0, 0, false⟩], []⟩ =
      some (.nil, ⟨[.num 7, .num 5], [⟨⟨0, []⟩, 0, 0, false⟩], []⟩) ∧
    [Value.num 7, Value.num 5] ≠ [Value.num 7] := by
  refine ⟨rfl, by simp⟩

/-- C4 (amended): when `runClosure(c, &v, args, n)` returns successfully,
`v` holds the value returned by the closure's RETURN; relative to the stack
as the callee's RETURN left it, exactly the `n` argument slots (plus the
result slot it pops) are removed — so the VM stack is restored exactly to
its pre-call state whenever the callee's RETURN fires with nothing extra
left above the arguments (stack = caller stack ++ args ++ [result]), but
values a callee leaves above its arguments are NOT removed. -/
theorem c4_runClosure (fuel : Nat) (fn : ObjFunction) (args : List Value)
    (s s2 s4 : VMSt) (v0 : Value)
    (hcall : call fn args.length { s with stack := s.stack ++ args } = .ok s2)
    (hrun : runLoop fuel (markCallClosure s2) = .ok s4)
    (hstk : s4.stack = s.stack ++ args ++ [v0]) :
    runClosure fuel fn args s = some (v0, { s4 with stack := s.stack }) := by
  unfold runClosure
  rw [hcall]
  simp only [hrun, hstk, List.dropLast_concat, List.getLast?_concat, Option.getD_some,
    List.length_append, Nat.add_sub_cancel, List.take_left]

/-- Witness for c4_runClosure: a balanced callee (`[nilI, ret]`) restores
the caller's stack exactly. -/
theorem c4_runClosure_witness :
    runClosure 10 ⟨1, [.nilI, .ret]⟩ [.num 5]
        ⟨[.num 7], [⟨⟨0, []⟩, 0, 0, false⟩], []⟩ =
      some (.nil, ⟨[.num 7], [⟨⟨0, []⟩, 0, 0, false⟩], []⟩) :=
  c4_runClosure 10 ⟨1, [.nilI, .ret]⟩ [.num 5]
    ⟨[.num 7], [⟨⟨0, []⟩, 0, 0, false⟩], []⟩
    ⟨[.num 7, .num 5], [⟨⟨1, [.nilI, .ret]⟩, 0, 0, false⟩, ⟨⟨0, []⟩, 0, 0, false⟩], []⟩
    ⟨[.num 7, .num 5, .nil], [⟨⟨0, []⟩, 0, 0, false⟩], []⟩
    .nil rfl rfl rfl

/-- Normalizes an index argument the way the string/list built-ins do:
a negative index is replaced by `length + index` (vm.c:493 etc.). -/
def normIdx (len : Nat) (i : Int) : Int :=
  if i < 0 then (len : Int) + i else i

/-- Modelled from the spec: `isValidStringIndex` lives in list/object code
that is not under src/; §8 "Negative indices map to `length + index` for
both strings and lists; out-of-range errors" — an index is valid exactly
when it lies in `[0, length)`. -/
def isValidStringIndex (len : Nat) (i : Int) : Bool :=
  decide (0 ≤ i ∧ i < (len : Int))

/-- Embeds the 子串/substring branch of `invokeString` (vm.c:474):
truncate both number arguments to int, replace negative indices by
`length + index`, validate `begin` and `end - 1` as string indices (the
exclusive ending index is checked inclusively at `end - 1`), reject
`end < begin`, and build the result with `takeString(chars, end-begin+1)`:
the buffer holds the half-open slice `[begin, end)` followed by the NUL
terminator, and the constructed string's recorded length is
`end - begin + 1`, so the NUL slot is part of the result's characters. -/
def substring (s : List Nat) (b e : Int) : Except RTErr (List Nat) :=
  let nb := normIdx s.length b
  let ne := normIdx s.length e
  if ¬ isValidStringIndex s.length nb then .error (.invalidIndex 1)
  else if ¬ isValidStringIndex s.length (ne - 1) then .error (.invalidIndex 2)
  else if ne < nb then .error .endBeforeBegin
  else .ok ((s.drop nb.toNat).take (ne - nb).toNat ++ [0])

/-- Argument/arity checking wrapper of the 子串 branch: two number
arguments are required (`peek(argCount-1)` is `begin`,
`peek(argCount-2)` is `end`). -/
def strSubstringB (recv : List Nat) (args : List Value) : Except RTErr Value :=
  match args with
  | [a1, a2] =>
    match a1 with
    | .num b =>
      match a2 with
      | .num e => (substring recv b e).map .str
      | _ => .error (.argTypeMismatch 2)
    | _ => .error (.argTypeMismatch 1)
  | _ => .error (.expectedArgs 2 args.length)

/-- C5 counterexample: the empty slice `s.substring(0, 0)` is REJECTED
(the validity check on `end - 1` fails for `end = 0`), although the claim
says an empty slice with `end = begin` is accepted. -/
theorem c5_substring_counterexample :
    strSubstringB [97, 98] [.num 0, .num 0] = .error (.invalidIndex 2) := rfl

/-- C5 (amended): substring normalizes negative indices by `length+index`
and succeeds exactly when the normalized begin is in `[0, len)`, the
normalized end is in `[1, len]`, and `end ≥ begin`; hence `end = length`
(a full suffix) is accepted, while an empty slice `end = begin` is
accepted only for `begin ≥ 1` — `begin = end = 0` errors.  On success
the result's characters are the half-open slice followed by the NUL slot
that `takeString(chars, end-begin+1)` includes in the string's length. -/
theorem c5_substring (s : List Nat) (b e : Int) :
    ((∃ r, substring s b e = .ok r) ↔
      (0 ≤ normIdx s.length b ∧ normIdx s.length b < (s.length : Int) ∧
        1 ≤ normIdx s.length e ∧ normIdx s.length e ≤ (s.length : Int) ∧
        normIdx s.length b ≤ normIdx s.length e)) ∧
    ((0 ≤ normIdx s.length b ∧ normIdx s.length b < (s.length : Int) ∧
        1 ≤ normIdx s.length e ∧ normIdx s.length e ≤ (s.length : Int) ∧
        normIdx s.length b ≤ normIdx s.length e) →
      substring s b e =
        .ok ((s.drop (normIdx s.length b).toNat).take
              (normIdx s.length e - normIdx s.length b).toNat ++ [0])) := by
  constructor
  · constructor
    · intro ⟨r, hr⟩
      by_cases h1 : isValidStringIndex s.length (normIdx s.length b)
      · by_cases h2 : isValidStringIndex s.length (normIdx s.length e - 1)
        · by_cases h3 : normIdx s.length e < normIdx s.length b
          · simp [substring, h1, h2, h3] at hr
          · simp only [isValidStringIndex, decide_eq_true_eq] at h1 h2
            omega
        · simp [substring, h1, h2] at hr
      · simp [substring, h1] at hr
    · intro h
      have h1 : isValidStringIndex s.length (normIdx s.length b) = true := by
        simp only [isValidStringIndex, decide_eq_true_eq]; omega
      have h2 : isValidStringIndex s.length (normIdx s.length e - 1) = true := by
        simp only [isValidStringIndex, decide_eq_true_eq]; omega
      have h3 : ¬ normIdx s.length e < normIdx s.length b := by omega
      exact ⟨(s.drop (normIdx s.length b).toNat).take
              (normIdx s.length e - normIdx s.length b).toNat ++ [0],
             by simp [substring, h1, h2, h3]⟩
  · intro h
    have h1 : isValidStringIndex s.length (normIdx s.length b) = true := by
      simp only [isValidStringIndex, decide_eq_true_eq]; omega
    have h2 : isValidStringIndex s.length (normIdx s.length e - 1) = true := by
      simp only [isValidStringIndex, decide_eq_true_eq]; omega
    have h3 : ¬ normIdx s.length e < normIdx s.length b := by omega
    simp [substring, h1, h2, h3]

/-- Witness for c5_substring: slicing `"abc"[1, 3)` yields `"bc"` plus the
NUL slot; the full-suffix case `end = length` is accepted. -/
theorem c5_substring_witness :
    substring [97, 98, 99] 1 3 = .ok [98, 99, 0] := by
  have h := (c5_substring [97, 98, 99] 1 3).2 (by decide)
  rw [h]
  rfl

/-- Model of the C library `iswspace` on code points: the standard white
space characters (space, horizontal/vertical tab, newline, form feed,
carriage return). -/
def iswspace (c : Nat) : Bool :=
  c == 32 || c == 9 || c == 10 || c == 11 || c == 12 || c == 13

/-- Embeds `containsChar` (vm.c:120): with a NULL set (no argument given to
the trim built-in) the test is `iswspace`; otherwise membership in the set
string. -/
def containsChar (input : Option (List Nat)) (c : Nat) : Bool :=
  match input with
  | none => iswspace c
  | some l => l.contains c

/-- Embeds the shared tail of the 修剪/trim and 修剪端/trimEnd branches
(vm.c:371-377 and 422-428) on a NONEMPTY remaining string `str`: the C
scans back from the last character while it is in the removal set,
stopping before position 0 (`end > str`), so it removes
`min(trailing-run, len - 1)` characters; it then copies
`res_size = min(end - str, wcslen(str) - 1)` characters — note the
`wcslen(str) - 1` operand, which drops the final kept character whenever
the string has no trailing characters in the removal set. -/
def trimEndScan (remove : Option (List Nat)) (str : List Nat) : List Nat :=
  let k := min (str.reverse.takeWhile (containsChar remove)).length (str.length - 1)
  str.take (min (str.length - k) (str.length - 1))

/-- Embeds the 修剪/trim branch of `invokeString` (vm.c:347): advance past
leading characters of the removal set; if nothing remains, the C returns
`copyString(0, 1)` — a length-1 string built from a NULL buffer, modelled
as the single NUL code point — otherwise run the end scan above. -/
def strTrimCore (remove : Option (List Nat)) (s : List Nat) : List Nat :=
  let str := s.dropWhile (containsChar remove)
  if str.isEmpty then [0] else trimEndScan remove str

/-- Embeds the 修剪始/trimStart branch (vm.c:379): advance past leading
characters of the removal set; if nothing remains, `copyString(0, 1)`;
otherwise copy the whole remainder. -/
def strTrimStartCore (remove : Option (List Nat)) (s : List Nat) : List Nat :=
  let str := s.dropWhile (containsChar remove)
  if str.isEmpty then [0] else str

/-- Embeds the 修剪端/trimEnd branch (vm.c:405): no leading advance and no
empty-string guard; on the empty string the scan degenerates to a length-0
copy, otherwise it is the shared end scan. -/
def strTrimEndCore (remove : Option (List Nat)) (s : List Nat) : List Nat :=
  if s.isEmpty then [] else trimEndScan remove s

/-- Argument handling shared by the three trim built-ins: at most one
argument (else 「需要 0 到 1 个参数…」), which must be a string. -/
def trimArgs (core : Option (List Nat) → List Nat → List Nat) (recv : List Nat)
    (args : List Value) : Except RTErr Value :=
  match args with
  | [] => .ok (.str (core none recv))
  | [.str set] => .ok (.str (core (some set) recv))
  | [_] => .error (.argTypeMismatch 1)
  | _ => .error (.expectedArgsRange 0 1 args.length)

/-- The 修剪/trim built-in call. -/
def strTrimB (recv : List Nat) (args : List Value) : Except RTErr Value :=
  trimArgs strTrimCore recv args

/-- The 修剪始/trimStart built-in call. -/
def strTrimStartB (recv : List Nat) (args : List Value) : Except RTErr Value :=
  trimArgs strTrimStartCore recv args

/-- The 修剪端/trimEnd built-in call. -/
def strTrimEndB (recv : List Nat) (args : List Value) : Except RTErr Value :=
  trimArgs strTrimEndCore recv args

/-- C6 failing input, evaluated: `"ab".trim()` — both end characters are
non-whitespace, so the claim requires `"ab"` back unchanged, but the code
returns `"a"`: with no trailing whitespace `res_size = min(end - str,
wcslen(str) - 1)` equals `wcslen(str) - 1` and the last character is
dropped.  `trimEnd` misbehaves identically, while `trimStart` does return
the remainder intact (`" ab".trimStart() = "ab"`). -/
theorem c6_trim_bug :
    strTrimB [97, 98] [] = .ok (.str [97]) ∧
    strTrimEndB [97, 98] [] = .ok (.str [97]) ∧
    strTrimStartB [32, 97, 98] [] = .ok (.str [97, 98]) ∧
    strTrimB [32, 97, 98, 32] [] = .ok (.str [97, 98]) :=
  ⟨rfl, rfl, rfl, rfl⟩

/-- Model of the C library `wcsstr`: the index of the first occurrence of
`needle` in the haystack (`none` when absent; index 0 on an empty
needle). -/
def wcsstrIdx (needle : List Nat) : List Nat → Option Nat
  | [] => if needle.isEmpty then some 0 else none
  | c :: rest =>
    if needle.isPrefixOf (c :: rest) then some 0
    else (wcsstrIdx needle rest).map (fun j => j + 1)

/-- Embeds the loop of the 计数/count branch of `invokeString` (vm.c:256):
`tmp = wcsstr(str, search); while (tmp) { count++; tmp++;
tmp = wcsstr(tmp, search); }` — find a match, advance ONE character past
its start, search again.  Fuel bounds the iteration count; for a nonempty
needle the scan consumes at least one character per round, so
`length + 1` fuel never runs out (for the empty needle the C loop does not
terminate). -/
def countLoop (needle : List Nat) : Nat → List Nat → Nat
  | 0, _ => 0
  | fuel + 1, suffix =>
    match wcsstrIdx needle suffix with
    | none => 0
    | some j => 1 + countLoop needle fuel (suffix.drop (j + 1))

/-- The 计数/count result on the receiver string. -/
def strCount (s needle : List Nat) : Nat := countLoop needle (s.length + 1) s

/-- Reference count: the number of indices at which the needle occurs
(each position counted, so overlapping occurrences all count). -/
def occCount (needle : List Nat) : List Nat → Nat
  | [] => 0
  | c :: rest => (if needle.isPrefixOf (c :: rest) then 1 else 0) + occCount needle rest

/-- Argument/arity checking wrapper of the 计数 branch (vm.c:242): one
string argument. -/
def strCountB (recv : List Nat) (args : List Value) : Except RTErr Value :=
  match args with
  | [.str search] => .ok (.num (strCount recv search))
  | [_] => .error (.argTypeMismatch 1)
  | _ => .error (.expectedArgs 1 args.length)

theorem occCount_eq_zero_of_wcsstrIdx_none (needle s : List Nat)
    (hne : needle ≠ []) (h : wcsstrIdx needle s = none) :
    occCount needle s = 0 := by
  induction s with
  | nil => rfl
  | cons c rest ih =>
    by_cases hp : needle.isPrefixOf (c :: rest)
    · simp [wcsstrIdx, hp] at h
    · have h' : wcsstrIdx needle rest = none := by
        simpa [wcsstrIdx, hp] using h
      simp [occCount, hp, ih h']

theorem occCount_of_wcsstrIdx_some (needle : List Nat) (hne : needle ≠ []) :
    ∀ (s : List Nat) (j : Nat), wcsstrIdx needle s = some j →
      occCount needle s = 1 + occCount needle (s.drop (j + 1)) := by
  intro s
  induction s with
  | nil =>
    intro j h
    simp [wcsstrIdx, hne] at h
  | cons c rest ih =>
    intro j h
    by_cases hp : needle.isPrefixOf (c :: rest)
    · have hj : j = 0 := by
        have := (by simpa [wcsstrIdx, hp] using h : (0 : Nat) = j)
        omega
      subst hj
      simp [occCount, hp]
    · have h' : ∃ j', wcsstrIdx needle rest = some j' ∧ j' + 1 = j := by
        simpa [wcsstrIdx, hp] using h
      obtain ⟨j', hj', hjj⟩ := h'
      subst hjj
      have htail := ih j' hj'
      simp [occCount, hp, List.drop_succ_cons]
      omega

theorem wcsstrIdx_lt_length (needle : List Nat) (hne : needle ≠ []) :
    ∀ (s : List Nat) (j : Nat), wcsstrIdx needle s = some j → j < s.length := by
  intro s
  induction s with
  | nil => intro j h; simp [wcsstrIdx, hne] at h
  | cons c rest ih =>
    intro j h
    by_cases hp : needle.isPrefixOf (c :: rest)
    · have hj : j = 0 := by
        have := (by simpa [wcsstrIdx, hp] using h : (0 : Nat) = j)
        omega
      subst hj
      simp
    · have h' : ∃ j', wcsstrIdx needle rest = some j' ∧ j' + 1 = j := by
        simpa [wcsstrIdx, hp] using h
      obtain ⟨j', hj', hjj⟩ := h'
      have := ih j' hj'
      simp only [List.length_cons]
      omega

theorem countLoop_eq_occCount (needle : List Nat) (hne : needle ≠ []) :
    ∀ (fuel : Nat) (s : List Nat), s.length < fuel →
      countLoop needle fuel s = occCount needle s := by
  intro fuel
  induction fuel with
  | zero => intro s h; omega
  | succ fuel ih =>
    intro s h
    cases hw : wcsstrIdx needle s with
    | none =>
      rw [countLoop, hw]
      exact (occCount_eq_zero_of_wcsstrIdx_none needle s hne hw).symm
    | some j =>
      have hj := wcsstrIdx_lt_length needle hne s j hw
      have hdrop : (s.drop (j + 1)).length < fuel := by
        simp only [List.length_drop]
        omega
      rw [countLoop, hw]
      show 1 + countLoop needle fuel (s.drop (j + 1)) = occCount needle s
      rw [ih (s.drop (j + 1)) hdrop,
        occCount_of_wcsstrIdx_some needle hne s j hw]

theorem occCount_eq_filter_length (needle : List Nat) :
    ∀ s : List Nat, occCount needle s =
      ((List.range s.length).filter (fun i => needle.isPrefixOf (s.drop i))).length := by
  intro s
  induction s with
  | nil => rfl
  | cons c rest ih =>
    have hcomp : ((fun i => needle.isPrefixOf ((c :: rest).drop i)) ∘ Nat.succ)
        = (fun i => needle.isPrefixOf (rest.drop i)) := by
      funext i
      simp [Function.comp]
    rw [occCount, List.length_cons, List.range_succ_eq_map, List.filter_cons,
      List.filter_map, hcomp]
    by_cases hp : needle.isPrefixOf (c :: rest)
    · have h0 : needle.isPrefixOf ((c :: rest).drop 0) = true := by simpa using hp
      rw [if_pos h0, List.length_cons, List.length_map, ← ih]
      simp [hp]
      omega
    · have h0 : ¬ (needle.isPrefixOf ((c :: rest).drop 0) = true) := by simpa using hp
      rw [if_neg h0, List.length_map, ← ih]
      simp [hp]

/-- C7: for every string and non-empty needle, the 计数/count built-in
returns the number of indices at which the needle occurs in the receiver —
the scan advances one character past the start of each match, so
overlapping occurrences are each counted. -/
theorem c7_count (s needle : List Nat) (hne : needle ≠ []) :
    strCountB s [.str needle] =
      .ok (.num (((List.range s.length).filter
        (fun i => needle.isPrefixOf (s.drop i))).length)) := by
  have h := countLoop_eq_occCount needle hne (s.length + 1) s (by omega)
  rw [strCountB, strCount, h, occCount_eq_filter_length needle s]

/-- Witness for c7_count: `"aaa".count("aa") = 2` — the two overlapping
occurrences are both counted. -/
theorem c7_count_witness :
    strCountB [97, 97, 97] [.str [97, 97]] = .ok (.num 2) := by
  have h := c7_count [97, 97, 97] [97, 97] (by decide)
  rw [h]
  rfl

/-- Model of the C library `towupper` on the code points the claims use:
ASCII lower-case letters map to upper case; every other modelled code
point maps to itself. -/
def towupper (c : Nat) : Nat := if 97 ≤ c ∧ c ≤ 122 then c - 32 else c

/-- Model of the C library `towlower`: ASCII upper-case letters map to
lower case; every other modelled code point maps to itself. -/
def towlower (c : Nat) : Nat := if 65 ≤ c ∧ c ≤ 90 then c + 32 else c

/-- Embeds the 大写/upper branch of `invokeString` (vm.c:430): the buffer
receives a copy of the receiver plus its NUL terminator (`wcscpy`; the
stray store at `chars[str->length + 1]` writes past the allocation and
does not land in the string), the loop maps `towupper` over the characters
up to the NUL, and `takeString(chars, str->length + 1)` constructs a
string whose recorded LENGTH IS `length + 1`, so the NUL slot becomes part
of the result's characters. -/
def strUpperCore (s : List Nat) : List Nat := s.map towupper ++ [0]

/-- Embeds the 小写/lower branch of `invokeString` (vm.c:452), identical to
the upper-case branch with `towlower`. -/
def strLowerCore (s : List Nat) : List Nat := s.map towlower ++ [0]

/-- Arity wrapper of the 大写 branch: zero arguments. -/
def strUpperB (recv : List Nat) (args : List Value) : Except RTErr Value :=
  match args with
  | [] => .ok (.str (strUpperCore recv))
  | _ => .error (.expectedArgs 0 args.length)

/-- Arity wrapper of the 小写 branch: zero arguments. -/
def strLowerB (recv : List Nat) (args : List Value) : Except RTErr Value :=
  match args with
  | [] => .ok (.str (strLowerCore recv))
  | _ => .error (.expectedArgs 0 args.length)

/-- C8 failing input, evaluated: `"ab".upper()` returns a string of length
3 — the mapped characters plus the NUL slot that `takeString(chars,
str->length + 1)` counts into the length — although the claim (and the
code's own comment) promise a string of the receiver's length.  The
character mapping itself is pointwise correct on the first `length`
positions. -/
theorem c8_upper_lower_length_bug :
    strUpperB [97, 98] [] = .ok (.str [65, 66, 0]) ∧
    (strUpperCore [97, 98]).length = 3 ∧
    (strUpperCore [97, 98]).length ≠ ([97, 98] : List Nat).length ∧
    strLowerB [65, 66] [] = .ok (.str [97, 98, 0]) ∧
    (∀ s : List Nat, ∀ i < s.length, (strUpperCore s).getD i 0 = towupper (s.getD i 0)) := by
  refine ⟨rfl, rfl, by decide, rfl, fun s i hi => ?_⟩
  rw [strUpperCore, List.getD_append _ _ _ _ (by simpa using hi),
    List.getD_eq_getElem?_getD, List.getD_eq_getElem?_getD,
    List.getElem?_map]
  rcases List.getElem?_eq_getElem (l := s) (n := i) hi with h
  rw [h]
  rfl

/-- Tests whether a value is an instance (`IS_INSTANCE`). -/
def Value.isInstance : Value → Bool
  | .inst _ _ _ => true
  | _ => false

/-- Embeds the `OP_GET_PROPERTY` case of `run` (vm.c:897): any receiver
that is not an instance raises 「只有实例有属性。」; otherwise the field
table is consulted first, then `bindMethod` wraps a class method with the
receiver into a bound method, and an unknown name errors. -/
def opGetProperty (v : Value) (name : String) : Except RTErr Value :=
  match v with
  | .inst methods fields isStatic =>
    match tableGet fields name with
    | some value => .ok value
    | none =>
      match tableGet methods name with
      | some m => .ok (.bound (.inst methods fields isStatic) m)
      | none => .error (.undefinedProperty name)
  | _ => .error .onlyInstancesHaveProperties

/-- Receiver dispatch of `invoke` (vm.c:689): instances, strings and lists
route to their method resolution; anything else raises
「只有实例、字符串和列表有方法。」. -/
inductive InvokeRoute where
  | instanceRoute
  | stringRoute
  | listRoute
  deriving Repr, DecidableEq

/-- The receiver-type dispatch performed by `invoke` (vm.c:689). -/
def invokeRoute (recv : Value) : Except RTErr InvokeRoute :=
  match recv with
  | .inst _ _ _ => .ok .instanceRoute
  | .str _ => .ok .stringRoute
  | .list _ => .ok .listRoute
  | _ => .error .onlyInstancesStringsListsHaveMethods

/-- Embeds the 长度/length branch of `invokeString` (vm.c:211): zero
arguments, returns the character count. -/
def strLengthB (recv : List Nat) (args : List Value) : Except RTErr Value :=
  match args with
  | [] => .ok (.num recv.length)
  | _ => .error (.expectedArgs 0 args.length)

/-- Embeds the 长度/length branch of `invokeList` (vm.c:611): zero
arguments, returns the element count. -/
def listLengthB (recv : List Value) (args : List Value) : Except RTErr Value :=
  match args with
  | [] => .ok (.num recv.length)
  | _ => .error (.expectedArgs 0 args.length)

/-- C9: `GET_PROPERTY` on any non-instance receiver — strings and lists
included — raises 「只有实例有属性。」, for every property name (so fetching
`length` off a string without calling it errors); by contrast `INVOKE`
routes string and list receivers to the built-in tables, where invoking
`length` succeeds. -/
theorem c9_property_vs_invoke (v : Value) (name : String) (s : List Nat)
    (l : List Value) (h : v.isInstance = false) :
    opGetProperty v name = .error .onlyInstancesHaveProperties ∧
    invokeRoute (.str s) = .ok .stringRoute ∧
    invokeRoute (.list l) = .ok .listRoute ∧
    strLengthB s [] = .ok (.num s.length) ∧
    listLengthB l [] = .ok (.num l.length) := by
  refine ⟨?_, rfl, rfl, rfl, rfl⟩
  cases v <;> first
    | rfl
    | simp [Value.isInstance] at h

/-- Witness for c9_property_vs_invoke: reading the property 「长度」 off the
string `"a"` errors, while invoking it returns 1. -/
theorem c9_property_vs_invoke_witness :
    opGetProperty (.str [97]) "长度" = .error .onlyInstancesHaveProperties ∧
    strLengthB [97] [] = .ok (.num 1) := by
  have h := c9_property_vs_invoke (.str [97]) "长度" [97] [] rfl
  exact ⟨h.1, h.2.2.2.1⟩

/-- Modelled from the spec: `isValidListIndex` (list.c is not under src/);
§8 "Negative indices map to `length + index` for both strings and lists;
out-of-range errors" — valid exactly on `[0, count)`. -/
def isValidListIndex (count : Nat) (i : Int) : Bool :=
  decide (0 ≤ i ∧ i < (count : Int))

/-- Modelled from the spec: `insertToList` (list.c is not under src/);
§4.7 "insert at index i" — the element lands at position `idx`, later
elements shift right. -/
def insertToList (l : List Value) (item : Value) (idx : Nat) : List Value :=
  l.take idx ++ item :: l.drop idx

/-- Modelled from the spec: `deleteFromList` (list.c is not under src/);
§4.7 "delete at index i". -/
def deleteFromList (l : List Value) (idx : Nat) : List Value :=
  l.take idx ++ l.drop (idx + 1)

/-- Embeds the 推/push branch of `invokeList` (vm.c:525): one argument,
`insertToList(list, item, list->count)`, result value nil.  Each built-in
returns the value pushed as the call's result together with the mutated
receiver list. -/
def listPushB (recv : List Value) (args : List Value) :
    Except RTErr (Value × List Value) :=
  match args with
  | [item] => .ok (.nil, insertToList recv item recv.length)
  | _ => .error (.expectedArgs 1 args.length)

/-- Embeds the 弹/pop branch of `invokeList` (vm.c:538): zero arguments,
errors on an empty list (`isValidListIndex(list, count - 1)` with the C
`int` subtraction giving -1), otherwise `deleteFromList(list, count - 1)`;
the value pushed as the call's result is NIL, not the removed element. -/
def listPopB (recv : List Value) (args : List Value) :
    Except RTErr (Value × List Value) :=
  match args with
  | [] =>
    if ¬ isValidListIndex recv.length ((recv.length : Int) - 1) then
      .error .cannotPopEmpty
    else
      .ok (.nil, deleteFromList recv (recv.length - 1))
  | _ => .error (.expectedArgs 0 args.length)

/-- Embeds the 插/insert branch of `invokeList` (vm.c:558): two arguments,
the first a number; negative indices are normalized by `count + index`,
the index must be valid, and the result value is nil. -/
def listInsertB (recv : List Value) (args : List Value) :
    Except RTErr (Value × List Value) :=
  match args with
  | [a1, a2] =>
    match a1 with
    | .num i =>
      let idx := normIdx recv.length i
      if ¬ isValidListIndex recv.length idx then .error (.invalidIndex 1)
      else .ok (.nil, insertToList recv a2 idx.toNat)
    | _ => .error (.argTypeMismatch 1)
  | _ => .error (.expectedArgs 2 args.length)

/-- Embeds the 删/remove branch of `invokeList` (vm.c:585): one number
argument, negative indices normalized, index must be valid, result value
nil. -/
def listRemoveB (recv : List Value) (args : List Value) :
    Except RTErr (Value × List Value) :=
  match args with
  | [a1] =>
    match a1 with
    | .num i =>
      let idx := normIdx recv.length i
      if ¬ isValidListIndex recv.length idx then .error (.invalidIndex 1)
      else .ok (.nil, deleteFromList recv idx.toNat)
    | _ => .error (.argTypeMismatch 1)
  | _ => .error (.expectedArgs 1 args.length)

/-- C10: every mutating list built-in — push, pop, insert, remove — leaves
nil as the call's result value on success; in particular pop performs
`deleteFromList` on the last element and returns nil, discarding the
removed element. -/
theorem c10_list_mutators_return_nil (l : List Value) (x : Value) (i : Int) :
    (listPushB l [x] = .ok (.nil, l ++ [x])) ∧
    (l ≠ [] → listPopB l [] = .ok (.nil, l.dropLast)) ∧
    (0 ≤ i → i < (l.length : Int) →
      listInsertB l [.num i, x] = .ok (.nil, insertToList l x i.toNat)) ∧
    (0 ≤ i → i < (l.length : Int) →
      listRemoveB l [.num i] = .ok (.nil, deleteFromList l i.toNat)) := by
  refine ⟨?_, fun hne => ?_, fun h0 hlt => ?_, fun h0 hlt => ?_⟩
  · simp [listPushB, insertToList, List.take_length, List.drop_length]
  · have hlen : l.length ≠ 0 := by
      simpa [List.length_eq_zero] using hne
    have hvalid : isValidListIndex l.length ((l.length : Int) - 1) = true := by
      simp only [isValidListIndex, decide_eq_true_eq]
      omega
    have hdrop : deleteFromList l (l.length - 1) = l.dropLast := by
      rw [deleteFromList, List.dropLast_eq_take]
      have : l.length - 1 + 1 = l.length := by omega
      rw [this, List.drop_length, List.append_nil]
    simp [listPopB, hvalid, hdrop]
  · have hn : normIdx l.length i = i := by
      simp only [normIdx, if_neg (by omega : ¬ i < 0)]
    have hvalid : isValidListIndex l.length (normIdx l.length i) = true := by
      simp only [isValidListIndex, hn, decide_eq_true_eq]
      exact ⟨h0, hlt⟩
    rw [hn] at hvalid
    simp [listInsertB, hvalid, hn]
  · have hn : normIdx l.length i = i := by
      simp only [normIdx, if_neg (by omega : ¬ i < 0)]
    have hvalid : isValidListIndex l.length (normIdx l.length i) = true := by
      simp only [isValidListIndex, hn, decide_eq_true_eq]
      exact ⟨h0, hlt⟩
    rw [hn] at hvalid
    simp [listRemoveB, hvalid, hn]

/-- Witness for c10_list_mutators_return_nil on a concrete two-element
list: all four built-ins answer nil. -/
theorem c10_list_mutators_return_nil_witness :
    (listPushB [Value.num 1, Value.num 2] [Value.num 3] =
      .ok (.nil, [Value.num 1, Value.num 2, Value.num 3])) ∧
    (listPopB [Value.num 1, Value.num 2] [] = .ok (.nil, [Value.num 1])) ∧
    (listInsertB [Value.num 1, Value.num 2] [.num 0, .num 9] =
      .ok (.nil, [Value.num 9, Value.num 1, Value.num 2])) ∧
    (listRemoveB [Value.num 1, Value.num 2] [.num 1] = .ok (.nil, [Value.num 1])) := by
  have h := c10_list_mutators_return_nil [Value.num 1, Value.num 2] (Value.num 9) 0
  have h2 := c10_list_mutators_return_nil [Value.num 1, Value.num 2] (Value.num 3) 1
  refine ⟨?_, ?_, ?_, ?_⟩
  · exact h2.1
  · exact h.2.1 (by simp)
  · exact (h.2.2.1 (by omega) (by simp)).trans (by rfl)
  · exact (h2.2.2.2 (by omega) (by simp)).trans (by rfl)
